import Mathlib

/-!
Shallow embedding of `scripts/generate_image_paths.py` and verification of
its specification claims.

The program scans a directory tree for image files, groups the resulting
relative paths by folder and by extension, builds a JSON report document,
writes it to `image_paths.json`, and exits 0 on success / 1 on any error.

Modelling conventions:
* A directory tree is a list of `FSEntry` (the enumeration produced by
  `Path.rglob("*")`): each entry is its path relative to the scan root,
  as a list of name segments, plus a flag telling whether it is a regular
  file.  The scan root's own absolute path contributes `rootParts`
  (the code inspects `file_path.parts` of the absolute path).
* Python strings are Lean `String`s; Python's string comparison
  (lexicographic by code point) is embedded as `ltCharsB` below, since it
  must be executable by the kernel.
* Python `dict`s (insertion ordered) are embedded as association lists.
* `os.environ` is an explicit `Env` record; `datetime.now().isoformat()`
  is an explicit `now : String` parameter.
* Exceptions raised by filesystem primitives are embedded as `Option String`
  fields of a `World` record: `none` means the step succeeds, `some e`
  means it raises an exception whose message is `e`.
-/

/-- Code-point comparison of character lists, embedding Python's `<` on
strings (lexicographic by Unicode code point). -/
def ltCharsB : List Char → List Char → Bool
  | [], [] => false
  | [], _ :: _ => true
  | _ :: _, [] => false
  | a :: as, b :: bs =>
    if a.toNat < b.toNat then true
    else if b.toNat < a.toNat then false
    else ltCharsB as bs

/-- Python's `s < t` on strings. -/
def pyLt (s t : String) : Bool := ltCharsB s.data t.data

/-- The (total) `≤` ordering used to embed Python's `sorted` on strings. -/
def pyLe (s t : String) : Bool := !(pyLt t s)

/-- Embedding of Python's `str.lower()` (ASCII case folding; every
extension the program compares against is ASCII). -/
def lowerStr (s : String) : String := String.mk (s.data.map Char.toLower)

/-- Embedding of Python's `name.startswith(".")`. -/
def startsWithDot (s : String) : Bool :=
  match s.data with
  | [] => false
  | c :: _ => c == '.'

/-- Embedding of `str()` on a relative `pathlib` path: the segments joined
with `"/"` (POSIX flavour). -/
def joinParts : List String → String
  | [] => ""
  | [s] => s
  | s :: rest => s ++ "/" ++ joinParts rest

/-- Embedding of `.replace("\\", "/")` with its single-character pattern:
every backslash character becomes a forward slash. -/
def normalizeSlashes (s : String) : String :=
  String.mk (s.data.map (fun c => if c == '\\' then '/' else c))

/-- Split a character list at every `'/'` (auxiliary, accumulator holds the
current segment reversed). -/
def splitSlashAux : List Char → List Char → List (List Char)
  | [], acc => [acc.reverse]
  | c :: cs, acc =>
    if c == '/' then acc.reverse :: splitSlashAux cs []
    else splitSlashAux cs (c :: acc)

/-- The raw `'/'`-separated segments of a path string. -/
def segmentsOf (p : String) : List String :=
  (splitSlashAux p.data []).map String.mk

/-- Embedding of `pathlib.PurePosixPath(p).parts` for a relative path:
the `'/'`-separated segments with empty and `"."` components dropped. -/
def pathParts (p : String) : List String :=
  (segmentsOf p).filter (fun s => !(s == "" || s == "."))

/-- Embedding of `pathlib`'s `.name` on a relative path: the final
component, `""` when there is none. -/
def pyName (p : String) : String := (pathParts p).getLastD ""

/-- Embedding of `pathlib`'s `.suffix` on a file name: the substring from
the last dot, unless that dot is the first or the last character. -/
def pySuffix (name : String) : String :=
  let cs := name.data
  let pre := cs.reverse.takeWhile (fun c => !(c == '.'))
  if pre.length == cs.length then ""
  else if pre.length == 0 then ""
  else if pre.length + 1 == cs.length then ""
  else String.mk ('.' :: pre.reverse)

/-- Embedding of `str(pathlib.PurePosixPath(p).parent)` for a relative
path: the segments but the last joined with `"/"`, or `"."`. -/
def pyParent (p : String) : String :=
  let parts := pathParts p
  if parts.length ≤ 1 then "." else joinParts parts.dropLast

/-- One enumerated filesystem entry: its path relative to the scan root as
a list of name segments, and whether it is a regular file. -/
structure FSEntry where
  parts : List String
  isFile : Bool
deriving DecidableEq

/-- The last name segment of an entry, i.e. `file_path.name`. -/
def entryName (e : FSEntry) : String := e.parts.getLastD ""

/-- The supported image extensions (`image_extensions` in the source). -/
def image_extensions : List String :=
  [".jpg", ".jpeg", ".png", ".gif", ".bmp", ".tiff", ".tif",
   ".webp", ".svg", ".ico", ".jfif", ".pjpeg", ".pjp",
   ".avif", ".apng", ".heic", ".heif"]

/-- The ignored directory names (`ignore_dirs` in the source). -/
def ignore_dirs : List String :=
  [".git", ".github", ".vscode", "__pycache__",
   "node_modules", "venv", ".venv", "env", "dist",
   "build", ".next", ".nuxt", "out"]

/-- The filter applied to each enumerated entry inside `get_image_paths`:
no segment of the absolute path is an ignored directory name, the entry's
own name does not start with a dot, the entry is a regular file, and its
lowercased suffix is a supported image extension. -/
def keepEntry (rootParts : List String) (e : FSEntry) : Bool :=
  !((rootParts ++ e.parts).any (fun part => ignore_dirs.contains part)) &&
  !(startsWithDot (entryName e)) &&
  (e.isFile && image_extensions.contains (lowerStr (pySuffix (entryName e))))

/-- The string appended for a kept entry: its root-relative path with
backslashes replaced by forward slashes. -/
def relString (e : FSEntry) : String := normalizeSlashes (joinParts e.parts)

/-- Embedding of `get_image_paths`: filter the enumerated entries, render
each kept file's relative path, and return the paths sorted ascending. -/
def get_image_paths (rootParts : List String) (tree : List FSEntry) : List String :=
  ((tree.filter (keepEntry rootParts)).map relString).mergeSort pyLe

/-- One step of the Python dict-grouping idiom: create the key with an
empty list on first encounter, then append the path to its list. -/
def addToGroup : List (String × List String) → String → String → List (String × List String)
  | [], key, path => [(key, [path])]
  | (k, ps) :: rest, key, path =>
    if k = key then (k, ps ++ [path]) :: rest
    else (k, ps) :: addToGroup rest key path

/-- The folder key computed for one path inside `group_by_folder`:
`str(Path(path).parent)`, with `"."` replaced by `"root"`. -/
def folderOf (path : String) : String :=
  let folder := pyParent path
  if folder = "." then "root" else folder

/-- Embedding of `group_by_folder`. -/
def group_by_folder (paths : List String) : List (String × List String) :=
  paths.foldl (fun grouped path => addToGroup grouped (folderOf path) path) []

/-- The extension key computed for one path inside `group_by_extension`:
`Path(path).suffix.lower()`, with `""` replaced by `"no_extension"`. -/
def extOf (path : String) : String :=
  let ext := lowerStr (pySuffix (pyName path))
  if ext = "" then "no_extension" else ext

/-- Embedding of `group_by_extension`. -/
def group_by_extension (paths : List String) : List (String × List String) :=
  paths.foldl (fun grouped path => addToGroup grouped (extOf path) path) []

/-- The environment variables the program reads (`none` = unset). -/
structure Env where
  github_repository : Option String
  github_sha : Option String
  github_run_id : Option String
  github_output : Option String
deriving DecidableEq

/-- The `metadata` object of the report document. -/
structure Metadata where
  generated_at : String
  total_images : Nat
  repository : String
  commit_sha : String
  run_id : String
deriving DecidableEq

/-- The `statistics` object of the report document. -/
structure Statistics where
  by_folder : List (String × Nat)
  by_extension : List (String × Nat)
deriving DecidableEq

/-- The `images` object of the report document. -/
structure ImagesSection where
  all_paths : List String
  by_folder : List (String × List String)
  by_extension : List (String × List String)
deriving DecidableEq

/-- The report document (`output` in the source). -/
structure ReportDocument where
  metadata : Metadata
  statistics : Statistics
  images : ImagesSection
  summary : String
deriving DecidableEq

/-- Embedding of `create_json_output`. -/
def create_json_output (env : Env) (now : String) (image_paths : List String) :
    ReportDocument :=
  let by_folder := group_by_folder image_paths
  let by_extension := group_by_extension image_paths
  let folder_stats := by_folder.map (fun kv => (kv.1, kv.2.length))
  let extension_stats := by_extension.map (fun kv => (kv.1, kv.2.length))
  { metadata :=
      { generated_at := now
        total_images := image_paths.length
        repository := env.github_repository.getD "local"
        commit_sha := env.github_sha.getD ""
        run_id := env.github_run_id.getD "" }
    statistics :=
      { by_folder := folder_stats
        by_extension := extension_stats }
    images :=
      { all_paths := image_paths
        by_folder := by_folder
        by_extension := by_extension }
    summary := "Found " ++ toString image_paths.length ++
      " image files across " ++ toString by_folder.length ++ " folders" }

/-- The literal document built inline in `main` when no image was found. -/
def emptyOutput (env : Env) (now : String) : ReportDocument :=
  { metadata :=
      { generated_at := now
        total_images := 0
        repository := env.github_repository.getD "local"
        commit_sha := env.github_sha.getD ""
        run_id := env.github_run_id.getD "" }
    statistics := { by_folder := [], by_extension := [] }
    images := { all_paths := [], by_folder := [], by_extension := [] }
    summary := "No image files found" }

/-- The document `main` writes: the empty-case literal when the collected
path list is empty, `create_json_output` otherwise. -/
def mainOutput (env : Env) (now : String) (rootParts : List String)
    (tree : List FSEntry) : ReportDocument :=
  let image_paths := get_image_paths rootParts tree
  if image_paths.isEmpty then emptyOutput env now
  else create_json_output env now image_paths

/-- The ambient state of one invocation: the tree under the current
directory, the environment, the clock, and for each fallible step whether
it raises (`some` = exception message). -/
structure World where
  rootParts : List String
  tree : List FSEntry
  env : Env
  now : String
  scanError : Option String
  writeError : Option String
  sinkError : Option String
deriving DecidableEq

/-- The observable outcome of one invocation: the exit status, the content
written to `image_paths.json` (if the write completed), the lines appended
to the `GITHUB_OUTPUT` sink, and the diagnostic printed to stderr. -/
structure RunOutcome where
  exitCode : Nat
  written : Option ReportDocument
  sinkLines : List String
  errMsg : Option String
deriving DecidableEq

/-- The stderr line printed by `main`'s exception handler. -/
def failMsg (e : String) : String := "❌ 生成失败: " ++ e

/-- Embedding of the source's `main` function (the name `main` itself is
reserved by Lean): scan, build the document, write it, optionally append
to the CI output sink; any raised exception is caught, printed to stderr,
and turned into exit status 1. -/
def mainRun (w : World) : RunOutcome :=
  match w.scanError with
  | some e => ⟨1, none, [], some (failMsg e)⟩
  | none =>
    let output := mainOutput w.env w.now w.rootParts w.tree
    match w.writeError with
    | some e => ⟨1, none, [], some (failMsg e)⟩
    | none =>
      match w.env.github_output with
      | none => ⟨0, some output, [], none⟩
      | some _ =>
        match w.sinkError with
        | some e => ⟨1, some output, [], some (failMsg e)⟩
        | none =>
          ⟨0, some output,
            ["total_images=" ++ toString output.metadata.total_images,
             "output_file=image_paths.json"], none⟩

/-! ### Order lemmas for the embedded string comparison -/


theorem char_eq_of_toNat_eq {a b : Char} (h : a.toNat = b.toNat) : a = b :=
  Char.ext (UInt32.ext h)

theorem ltCharsB_cons (x y : Char) (xs ys : List Char) :
    ltCharsB (x :: xs) (y :: ys) =
      if x.toNat < y.toNat then true
      else if y.toNat < x.toNat then false
      else ltCharsB xs ys := rfl

theorem ltCharsB_irrefl (l : List Char) : ltCharsB l l = false := by
  induction l with
  | nil => rfl
  | cons a as ih => simp [ltCharsB_cons, ih]

theorem ltCharsB_trans : ∀ {a b c : List Char},
    ltCharsB a b = true → ltCharsB b c = true → ltCharsB a c = true := by
  intro a
  induction a with
  | nil =>
    intro b c hab hbc
    cases b <;> cases c <;> simp_all [ltCharsB]
  | cons x xs ih =>
    intro b c hab hbc
    cases b with
    | nil => simp [ltCharsB] at hab
    | cons y ys =>
      cases c with
      | nil => simp [ltCharsB] at hbc
      | cons z zs =>
        rw [ltCharsB_cons] at hab hbc ⊢
        rcases Nat.lt_trichotomy x.toNat y.toNat with h1 | h1 | h1 <;>
          rcases Nat.lt_trichotomy y.toNat z.toNat with h2 | h2 | h2
        · simp [Nat.lt_trans h1 h2]
        · simp [show x.toNat < z.toNat by omega]
        · simp [show ¬ y.toNat < z.toNat by omega, h2] at hbc
        · simp [show x.toNat < z.toNat by omega]
        · simp only [show ¬ x.toNat < y.toNat by omega,
            show ¬ y.toNat < x.toNat by omega, if_false, ite_false] at hab
          simp only [show ¬ y.toNat < z.toNat by omega,
            show ¬ z.toNat < y.toNat by omega, if_false, ite_false] at hbc
          simp [show ¬ x.toNat < z.toNat by omega,
            show ¬ z.toNat < x.toNat by omega, ih hab hbc]
        · simp [show ¬ y.toNat < z.toNat by omega, h2] at hbc
        · simp [show ¬ x.toNat < y.toNat by omega, h1] at hab
        · simp [show ¬ x.toNat < y.toNat by omega, h1] at hab
        · simp [show ¬ x.toNat < y.toNat by omega, h1] at hab

theorem ltCharsB_eq_of_not : ∀ {a b : List Char},
    ltCharsB a b = false → ltCharsB b a = false → a = b := by
  intro a
  induction a with
  | nil =>
    intro b hab _
    cases b with
    | nil => rfl
    | cons y ys => simp [ltCharsB] at hab
  | cons x xs ih =>
    intro b hab hba
    cases b with
    | nil => simp [ltCharsB] at hba
    | cons y ys =>
      rw [ltCharsB_cons] at hab hba
      rcases Nat.lt_trichotomy x.toNat y.toNat with h1 | h1 | h1
      · simp [h1] at hab
      · simp only [show ¬ x.toNat < y.toNat by omega,
          show ¬ y.toNat < x.toNat by omega, if_false, ite_false] at hab hba
        rw [char_eq_of_toNat_eq h1, ih hab hba]
      · simp [h1] at hba

theorem pyLe_refl (s : String) : pyLe s s = true := by
  simp [pyLe, pyLt, ltCharsB_irrefl]

theorem pyLe_total (s t : String) : (pyLe s t || pyLe t s) = true := by
  simp only [pyLe, pyLt, Bool.or_eq_true, Bool.not_eq_true']
  by_cases h : ltCharsB t.data s.data = true
  · right
    by_cases h2 : ltCharsB s.data t.data = true
    · exact absurd (ltCharsB_trans h h2) (by simp [ltCharsB_irrefl])
    · simpa using h2
  · left
    simpa using h

theorem pyLe_trans {a b c : String} (h1 : pyLe a b = true) (h2 : pyLe b c = true) :
    pyLe a c = true := by
  simp only [pyLe, pyLt, Bool.not_eq_true'] at h1 h2 ⊢
  by_cases hca : ltCharsB c.data a.data = true
  · by_cases hab : ltCharsB a.data b.data = true
    · exact absurd (ltCharsB_trans hca hab) (by simp [h2])
    · have : a.data = b.data := ltCharsB_eq_of_not (by simpa using hab) h1
      rw [this] at hca
      exact absurd hca (by simp [h2])
  · simpa using hca

theorem pyLe_antisymm {a b : String} (h1 : pyLe a b = true) (h2 : pyLe b a = true) :
    a = b := by
  simp only [pyLe, pyLt, Bool.not_eq_true'] at h1 h2
  exact String.ext (ltCharsB_eq_of_not h2 h1)

theorem pyLt_of_pyLe_of_ne {a b : String} (h1 : pyLe a b = true) (h2 : a ≠ b) :
    pyLt a b = true := by
  simp only [pyLe, pyLt, Bool.not_eq_true'] at h1 ⊢
  by_cases h : ltCharsB a.data b.data = true
  · exact h
  · exact absurd (String.ext (ltCharsB_eq_of_not (by simpa using h) h1)) h2

instance : IsAntisymm String (fun a b => pyLe a b = true) := ⟨fun _ _ => pyLe_antisymm⟩

/-! ### Basic facts about the path collector -/

theorem get_image_paths_perm (rootParts : List String) (tree : List FSEntry) :
    (get_image_paths rootParts tree).Perm
      ((tree.filter (keepEntry rootParts)).map relString) :=
  List.mergeSort_perm _ pyLe

theorem get_image_paths_sorted (rootParts : List String) (tree : List FSEntry) :
    (get_image_paths rootParts tree).Pairwise (fun a b => pyLe a b = true) :=
  @List.sorted_mergeSort String pyLe (fun _ _ _ => pyLe_trans) pyLe_total _

theorem mem_get_image_paths {rootParts : List String} {tree : List FSEntry} {p : String} :
    p ∈ get_image_paths rootParts tree ↔
      ∃ e ∈ tree, keepEntry rootParts e = true ∧ p = relString e := by
  rw [(get_image_paths_perm rootParts tree).mem_iff]
  simp only [List.mem_map, List.mem_filter]
  constructor
  · rintro ⟨e, ⟨he, hk⟩, hp⟩
    exact ⟨e, he, hk, hp.symm⟩
  · rintro ⟨e, he, hk, hp⟩
    exact ⟨e, ⟨he, hk⟩, hp.symm⟩

/-- Evaluation helper: if the filtered-and-rendered list is already
sorted, `get_image_paths` returns it unchanged. -/
theorem get_image_paths_eq_of_sorted {rootParts : List String} {tree : List FSEntry}
    {l : List String}
    (h : (tree.filter (keepEntry rootParts)).map relString = l)
    (hs : l.Pairwise (fun a b => pyLe a b = true)) :
    get_image_paths rootParts tree = l := by
  unfold get_image_paths
  rw [h, List.mergeSort_of_sorted hs]

/-! ### Joining and splitting path segments -/

/-- A segment is a legal file or directory name: nonempty, not one of the
two special names, and free of `'/'` (impossible in any filesystem name)
and of `'\\'` (the amendment hypothesis forced by the backslash
counterexamples). -/
def goodSeg (s : String) : Bool :=
  !(s == "") && !(s == ".") && !(s == "..") &&
  !(s.data.contains '/') && !(s.data.contains '\\')

/-- A directory tree enumeration is well formed when every entry has a
nonempty list of legal name segments and no two entries share a path. -/
def WellFormedTree (tree : List FSEntry) : Prop :=
  (∀ e ∈ tree, e.parts ≠ [] ∧ ∀ s ∈ e.parts, goodSeg s = true) ∧
  (tree.map FSEntry.parts).Nodup

theorem goodSeg_ne_empty {s : String} (h : goodSeg s = true) : s ≠ "" := by
  simp [goodSeg, -Bool.and_eq_true] at h
  simp only [Bool.and_eq_true, Bool.not_eq_true', beq_eq_false_iff_ne, ne_eq] at h
  exact h.1.1.1.1

theorem goodSeg_no_slash {s : String} (h : goodSeg s = true) : '/' ∉ s.data := by
  simp only [goodSeg, Bool.and_eq_true, Bool.not_eq_true'] at h
  have := h.1.2
  simpa [List.elem_iff] using this

theorem goodSeg_no_backslash {s : String} (h : goodSeg s = true) : '\\' ∉ s.data := by
  simp only [goodSeg, Bool.and_eq_true, Bool.not_eq_true'] at h
  have := h.2
  simpa [List.elem_iff] using this

theorem goodSeg_ne_dot {s : String} (h : goodSeg s = true) : s ≠ "." := by
  simp only [goodSeg, Bool.and_eq_true, Bool.not_eq_true', beq_eq_false_iff_ne, ne_eq] at h
  exact h.1.1.1.2

theorem string_mk_data (s : String) : String.mk s.data = s := rfl

theorem joinParts_cons_cons (a b : String) (l : List String) :
    joinParts (a :: b :: l) = a ++ "/" ++ joinParts (b :: l) := rfl

theorem data_joinParts_cons (a : String) {l : List String} (h : l ≠ []) :
    (joinParts (a :: l)).data = a.data ++ '/' :: (joinParts l).data := by
  cases l with
  | nil => exact absurd rfl h
  | cons b t =>
    rw [joinParts_cons_cons, String.data_append, String.data_append]
    have hd : ("/" : String).data = ['/'] := rfl
    rw [hd]
    simp

theorem no_backslash_joinParts {l : List String} (hg : ∀ s ∈ l, goodSeg s = true) :
    '\\' ∉ (joinParts l).data := by
  induction l with
  | nil => simp [joinParts]
  | cons a t ih =>
    cases t with
    | nil => exact goodSeg_no_backslash (hg a (by simp))
    | cons b t2 =>
      rw [data_joinParts_cons a (by simp)]
      intro hmem
      rcases List.mem_append.mp hmem with h1 | h1
      · exact goodSeg_no_backslash (hg a (by simp)) h1
      · rcases List.mem_cons.mp h1 with h2 | h2
        · cases h2
      
        · exact ih (fun s hs => hg s (by simp [hs])) h2

theorem map_noop_of_no_backslash : ∀ {l : List Char}, '\\' ∉ l →
    l.map (fun c => if c == '\\' then '/' else c) = l := by
  intro l
  induction l with
  | nil => intro _; rfl
  | cons c cs ih =>
    intro h
    have hc : ¬ c == '\\' := by
      simp only [beq_iff_eq]
      intro hcc
      exact h (by simp [hcc])
    simp only [List.map_cons]
    rw [if_neg hc, ih (fun hm => h (by simp [hm]))]

theorem normalizeSlashes_eq_self {s : String} (h : '\\' ∉ s.data) :
    normalizeSlashes s = s := by
  unfold normalizeSlashes
  rw [map_noop_of_no_backslash h, string_mk_data]

theorem splitSlashAux_no_slash {cs : List Char} (h : '/' ∉ cs) :
    ∀ acc, splitSlashAux cs acc = [acc.reverse ++ cs] := by
  induction cs with
  | nil => intro acc; simp [splitSlashAux]
  | cons c cs ih =>
    intro acc
    have hc : ¬ c == '/' := by
      simp only [beq_iff_eq]
      intro hcc
      exact h (by simp [hcc])
    rw [splitSlashAux, if_neg (by simpa using hc)]
    rw [ih (fun hm => h (by simp [hm])) (c :: acc)]
    simp

theorem splitSlashAux_split {u : List Char} (h : '/' ∉ u) :
    ∀ (v acc : List Char),
      splitSlashAux (u ++ '/' :: v) acc = (acc.reverse ++ u) :: splitSlashAux v [] := by
  induction u with
  | nil =>
    intro v acc
    simp [splitSlashAux]
  | cons c cs ih =>
    intro v acc
    have hc : ¬ c == '/' := by
      simp only [beq_iff_eq]
      intro hcc
      exact h (by simp [hcc])
    rw [List.cons_append, splitSlashAux, if_neg (by simpa using hc)]
    rw [ih (fun hm => h (by simp [hm])) v (c :: acc)]
    simp

theorem segmentsOf_joinParts : ∀ {l : List String}, l ≠ [] →
    (∀ s ∈ l, goodSeg s = true) → segmentsOf (joinParts l) = l := by
  intro l
  induction l with
  | nil => intro h; exact absurd rfl h
  | cons a t ih =>
    intro _ hg
    cases t with
    | nil =>
      have hj : joinParts [a] = a := rfl
      unfold segmentsOf
      rw [hj, splitSlashAux_no_slash (goodSeg_no_slash (hg a (by simp))) []]
      simp [string_mk_data]
    | cons b t2 =>
      unfold segmentsOf
      rw [data_joinParts_cons a (by simp)]
      rw [splitSlashAux_split (goodSeg_no_slash (hg a (by simp))) _ []]
      simp only [List.reverse_nil, List.nil_append, List.map_cons, string_mk_data]
      have := ih (by simp) (fun s hs => hg s (by simp [hs]))
      unfold segmentsOf at this
      rw [this]

theorem pathParts_joinParts {l : List String} (hne : l ≠ [])
    (hg : ∀ s ∈ l, goodSeg s = true) : pathParts (joinParts l) = l := by
  unfold pathParts
  rw [segmentsOf_joinParts hne hg]
  apply List.filter_eq_self.mpr
  intro s hs
  have h1 : ¬ s == "" := by
    simp only [beq_iff_eq]
    exact goodSeg_ne_empty (hg s hs)
  have h2 : ¬ s == "." := by
    simp only [beq_iff_eq]
    exact goodSeg_ne_dot (hg s hs)
  simp [h1, h2]

theorem relString_eq_joinParts {e : FSEntry} (hg : ∀ s ∈ e.parts, goodSeg s = true) :
    relString e = joinParts e.parts :=
  normalizeSlashes_eq_self (no_backslash_joinParts hg)

theorem joinParts_injective {l1 l2 : List String}
    (h1 : l1 ≠ []) (hg1 : ∀ s ∈ l1, goodSeg s = true)
    (h2 : l2 ≠ []) (hg2 : ∀ s ∈ l2, goodSeg s = true)
    (h : joinParts l1 = joinParts l2) : l1 = l2 := by
  have := segmentsOf_joinParts h1 hg1
  rw [h, segmentsOf_joinParts h2 hg2] at this
  exact this.symm

/-! ### Lemmas about the dict-grouping idiom -/

/-- Lookup in an association list (first matching key). -/
def findGroup : List (String × List String) → String → List String
  | [], _ => []
  | (k, ps) :: rest, key => if k = key then ps else findGroup rest key


theorem addToGroup_nil (k p : String) : addToGroup [] k p = [(k, [p])] := rfl

theorem addToGroup_cons_eq {k0 k : String} (ps : List String)
    (rest : List (String × List String)) (p : String) (h : k0 = k) :
    addToGroup ((k0, ps) :: rest) k p = (k0, ps ++ [p]) :: rest := by
  simp [addToGroup, h]

theorem addToGroup_cons_ne {k0 k : String} (ps : List String)
    (rest : List (String × List String)) (p : String) (h : ¬ k0 = k) :
    addToGroup ((k0, ps) :: rest) k p = (k0, ps) :: addToGroup rest k p := by
  simp [addToGroup, h]

theorem findGroup_cons (k0 key : String) (ps : List String)
    (rest : List (String × List String)) :
    findGroup ((k0, ps) :: rest) key = if k0 = key then ps else findGroup rest key := rfl

theorem findGroup_addToGroup (m : List (String × List String)) (k p : String) :
    ∀ k', findGroup (addToGroup m k p) k' =
      if k' = k then findGroup m k' ++ [p] else findGroup m k' := by
  induction m with
  | nil =>
    intro k'
    by_cases h : k' = k
    · subst h
      simp [addToGroup_nil, findGroup, findGroup_cons]
    · have h2 : ¬ k = k' := fun hh => h hh.symm
      simp [addToGroup_nil, findGroup, findGroup_cons, h, h2]
  | cons kv rest ih =>
    intro k'
    obtain ⟨k0, ps⟩ := kv
    by_cases h0 : k0 = k
    · subst h0
      rw [addToGroup_cons_eq ps rest p rfl]
      by_cases h : k' = k0
      · subst h
        simp [findGroup_cons]
      · have h2 : ¬ k0 = k' := fun hh => h hh.symm
        simp [findGroup_cons, h, h2]
    · rw [addToGroup_cons_ne ps rest p h0]
      by_cases h : k0 = k'
      · subst h
        simp [findGroup_cons, h0]
      · rw [findGroup_cons, if_neg h, findGroup_cons]
        rw [ih k']
        by_cases hk : k' = k
        · rw [if_pos hk, if_pos hk, if_neg h]
        · rw [if_neg hk, if_neg hk, if_neg h]

theorem keys_addToGroup (m : List (String × List String)) (k p : String) :
    (addToGroup m k p).map Prod.fst =
      if k ∈ m.map Prod.fst then m.map Prod.fst else m.map Prod.fst ++ [k] := by
  induction m with
  | nil => simp [addToGroup_nil]
  | cons kv rest ih =>
    obtain ⟨k0, ps⟩ := kv
    by_cases h0 : k0 = k
    · subst h0
      rw [addToGroup_cons_eq ps rest p rfl]
      simp
    · rw [addToGroup_cons_ne ps rest p h0]
      simp only [List.map_cons]
      rw [ih]
      have hmem : (k ∈ k0 :: rest.map Prod.fst) ↔ (k ∈ rest.map Prod.fst) := by
        simp only [List.mem_cons]
        constructor
        · rintro (h | h)
          · exact absurd h.symm h0
          · exact h
        · exact fun h => Or.inr h
      by_cases hk : k ∈ rest.map Prod.fst
      · rw [if_pos hk, if_pos (hmem.mpr hk)]
      · rw [if_neg hk, if_neg (fun hh => hk (hmem.mp hh))]
        simp

theorem flatten_addToGroup (m : List (String × List String)) (k p : String) :
    ((addToGroup m k p).map Prod.snd).flatten.Perm
      (((m.map Prod.snd).flatten) ++ [p]) := by
  induction m with
  | nil => simp [addToGroup_nil]
  | cons kv rest ih =>
    obtain ⟨k0, ps⟩ := kv
    by_cases h0 : k0 = k
    · subst h0
      rw [addToGroup_cons_eq ps rest p rfl]
      simp only [List.map_cons, List.flatten_cons]
      rw [List.append_assoc, List.append_assoc]
      exact List.Perm.append_left ps List.perm_append_comm
    · rw [addToGroup_cons_ne ps rest p h0]
      simp only [List.map_cons, List.flatten_cons]
      rw [List.append_assoc]
      exact List.Perm.append_left ps ih

/-- The generic grouping fold both `group_by_folder` and
`group_by_extension` instantiate (with their respective key functions). -/
def pyGroupBy (key : String → String) (paths : List String) :
    List (String × List String) :=
  paths.foldl (fun grouped path => addToGroup grouped (key path) path) []

theorem group_by_folder_eq (paths : List String) :
    group_by_folder paths = pyGroupBy folderOf paths := rfl

theorem group_by_extension_eq (paths : List String) :
    group_by_extension paths = pyGroupBy extOf paths := rfl

/-- First-occurrence deduplication, skipping keys already `seen`. -/
def dedupFirstFrom (seen : List String) : List String → List String
  | [] => []
  | k :: ks =>
    if k ∈ seen then dedupFirstFrom seen ks
    else k :: dedupFirstFrom (seen ++ [k]) ks

/-- First-occurrence deduplication of a list of keys. -/
def dedupFirst (l : List String) : List String := dedupFirstFrom [] l

theorem findGroup_foldGroups (key : String → String) :
    ∀ (ps : List String) (m : List (String × List String)) (k : String),
      findGroup (ps.foldl (fun g p => addToGroup g (key p) p) m) k =
        findGroup m k ++ ps.filter (fun p => key p == k) := by
  intro ps
  induction ps with
  | nil => intro m k; simp
  | cons p ps ih =>
    intro m k
    rw [List.foldl_cons, ih, findGroup_addToGroup]
    by_cases h : k = key p
    · rw [if_pos h]
      have hb : (key p == k) = true := by simp [h]
      rw [List.filter_cons, if_pos hb, List.append_assoc]
      simp
    · rw [if_neg h]
      have hb : ¬ (key p == k) = true := by
        simp only [beq_iff_eq]
        intro hh
        exact h hh.symm
      rw [List.filter_cons, if_neg hb]

theorem keys_foldGroups (key : String → String) :
    ∀ (ps : List String) (m : List (String × List String)),
      (ps.foldl (fun g p => addToGroup g (key p) p) m).map Prod.fst =
        m.map Prod.fst ++ dedupFirstFrom (m.map Prod.fst) (ps.map key) := by
  intro ps
  induction ps with
  | nil => intro m; simp [dedupFirstFrom]
  | cons p ps ih =>
    intro m
    rw [List.foldl_cons, ih, keys_addToGroup, List.map_cons]
    by_cases h : key p ∈ m.map Prod.fst
    · rw [if_pos h]
      rw [show dedupFirstFrom (m.map Prod.fst) (key p :: ps.map key) =
        dedupFirstFrom (m.map Prod.fst) (ps.map key) from by
          simp [dedupFirstFrom, h]]
    · rw [if_neg h]
      rw [show dedupFirstFrom (m.map Prod.fst) (key p :: ps.map key) =
        key p :: dedupFirstFrom (m.map Prod.fst ++ [key p]) (ps.map key) from by
          simp [dedupFirstFrom, h]]
      simp

theorem flatten_foldGroups (key : String → String) :
    ∀ (ps : List String) (m : List (String × List String)),
      ((ps.foldl (fun g p => addToGroup g (key p) p) m).map Prod.snd).flatten.Perm
        ((m.map Prod.snd).flatten ++ ps) := by
  intro ps
  induction ps with
  | nil => intro m; simp
  | cons p ps ih =>
    intro m
    rw [List.foldl_cons]
    refine (ih (addToGroup m (key p) p)).trans ?_
    refine (List.Perm.append_right ps (flatten_addToGroup m (key p) p)).trans ?_
    rw [List.append_assoc]
    exact List.Perm.append_left _ (by simp)

theorem dedupFirstFrom_nodup :
    ∀ (l seen : List String), (dedupFirstFrom seen l).Nodup ∧
      ∀ k ∈ dedupFirstFrom seen l, k ∉ seen := by
  intro l
  induction l with
  | nil => intro seen; simp [dedupFirstFrom]
  | cons k ks ih =>
    intro seen
    by_cases h : k ∈ seen
    · rw [show dedupFirstFrom seen (k :: ks) = dedupFirstFrom seen ks from by
        simp [dedupFirstFrom, h]]
      exact ih seen
    · rw [show dedupFirstFrom seen (k :: ks) =
        k :: dedupFirstFrom (seen ++ [k]) ks from by simp [dedupFirstFrom, h]]
      obtain ⟨hnd, hnin⟩ := ih (seen ++ [k])
      refine ⟨List.nodup_cons.mpr ⟨?_, hnd⟩, ?_⟩
      · intro hmem
        exact hnin k hmem (by simp)
      · intro k' hk'
        rcases List.mem_cons.mp hk' with h1 | h1
        · exact h1 ▸ h
        · intro hmem
          exact hnin k' h1 (by simp [hmem])

theorem dedupFirstFrom_subset :
    ∀ (l seen : List String) (k : String), k ∈ dedupFirstFrom seen l → k ∈ l := by
  intro l
  induction l with
  | nil => intro seen k h; simp [dedupFirstFrom] at h
  | cons k0 ks ih =>
    intro seen k h
    by_cases h0 : k0 ∈ seen
    · rw [show dedupFirstFrom seen (k0 :: ks) = dedupFirstFrom seen ks from by
        simp [dedupFirstFrom, h0]] at h
      exact List.mem_cons.mpr (Or.inr (ih seen k h))
    · rw [show dedupFirstFrom seen (k0 :: ks) =
        k0 :: dedupFirstFrom (seen ++ [k0]) ks from by simp [dedupFirstFrom, h0]] at h
      rcases List.mem_cons.mp h with h1 | h1
      · exact List.mem_cons.mpr (Or.inl h1)
      · exact List.mem_cons.mpr (Or.inr (ih _ k h1))

theorem keys_pyGroupBy (key : String → String) (ps : List String) :
    (pyGroupBy key ps).map Prod.fst = dedupFirst (ps.map key) := by
  unfold pyGroupBy dedupFirst
  rw [keys_foldGroups]
  simp

theorem keys_pyGroupBy_nodup (key : String → String) (ps : List String) :
    ((pyGroupBy key ps).map Prod.fst).Nodup := by
  rw [keys_pyGroupBy]
  exact (dedupFirstFrom_nodup _ []).1

theorem flatten_pyGroupBy (key : String → String) (ps : List String) :
    ((pyGroupBy key ps).map Prod.snd).flatten.Perm ps := by
  unfold pyGroupBy
  have := flatten_foldGroups key ps []
  simpa using this

theorem findGroup_pyGroupBy (key : String → String) (ps : List String) (k : String) :
    findGroup (pyGroupBy key ps) k = ps.filter (fun p => key p == k) := by
  unfold pyGroupBy
  rw [findGroup_foldGroups]
  simp [findGroup]

theorem findGroup_of_mem_nodup :
    ∀ {m : List (String × List String)} {k : String} {l : List String},
      (m.map Prod.fst).Nodup → (k, l) ∈ m → findGroup m k = l := by
  intro m
  induction m with
  | nil => intro k l _ h; simp at h
  | cons kv rest ih =>
    intro k l hnd hmem
    obtain ⟨k0, ps⟩ := kv
    rcases List.mem_cons.mp hmem with h1 | h1
    · obtain ⟨hk, hl⟩ := Prod.mk.injEq .. ▸ h1
      injection h1 with h1a h1b
      rw [findGroup_cons, if_pos h1a.symm, h1b]
    · have hne : ¬ k0 = k := by
        intro hh
        subst hh
        have : k0 ∈ rest.map Prod.fst := by
          exact List.mem_map.mpr ⟨(k0, l), h1, rfl⟩
        exact (List.nodup_cons.mp (by simpa using hnd)).1 this
      rw [findGroup_cons, if_neg hne]
      exact ih (List.nodup_cons.mp (by simpa using hnd)).2 h1

theorem mem_pyGroupBy_content {key : String → String} {ps : List String}
    {kv : String × List String} (h : kv ∈ pyGroupBy key ps) :
    kv.2 = ps.filter (fun p => key p == kv.1) := by
  obtain ⟨k, l⟩ := kv
  have := findGroup_of_mem_nodup (keys_pyGroupBy_nodup key ps) h
  rw [findGroup_pyGroupBy] at this
  exact this.symm

theorem contains_iff_mem {l : List String} {a : String} :
    l.contains a = true ↔ a ∈ l := by
  simp [List.elem_iff]

theorem mem_dedupFirstFrom :
    ∀ (l seen : List String) (x : String), x ∈ l →
      x ∈ seen ∨ x ∈ dedupFirstFrom seen l := by
  intro l
  induction l with
  | nil => intro seen x h; simp at h
  | cons k ks ih =>
    intro seen x h
    by_cases hk : k ∈ seen
    · rw [show dedupFirstFrom seen (k :: ks) = dedupFirstFrom seen ks from by
        simp [dedupFirstFrom, hk]]
      rcases List.mem_cons.mp h with h1 | h1
      · exact Or.inl (h1 ▸ hk)
      · exact ih seen x h1
    · rw [show dedupFirstFrom seen (k :: ks) =
        k :: dedupFirstFrom (seen ++ [k]) ks from by simp [dedupFirstFrom, hk]]
      rcases List.mem_cons.mp h with h1 | h1
      · exact Or.inr (List.mem_cons.mpr (Or.inl h1))
      · rcases ih (seen ++ [k]) x h1 with h2 | h2
        · rcases List.mem_append.mp h2 with h3 | h3
          · exact Or.inl h3
          · exact Or.inr (List.mem_cons.mpr (Or.inl (by simpa using h3)))
        · exact Or.inr (List.mem_cons.mpr (Or.inr h2))

theorem key_mem_keys_pyGroupBy {key : String → String} {ps : List String} {p : String}
    (hp : p ∈ ps) : key p ∈ (pyGroupBy key ps).map Prod.fst := by
  rw [keys_pyGroupBy]
  have : key p ∈ ps.map key := List.mem_map.mpr ⟨p, hp, rfl⟩
  rcases mem_dedupFirstFrom (ps.map key) [] (key p) this with h | h
  · simp at h
  · exact h

theorem filter_contains_length_one (key : String → String) (ps : List String)
    {p : String} (hp : p ∈ ps) :
    ((pyGroupBy key ps).filter (fun kv => kv.2.contains p)).length = 1 := by
  have hcongr : ∀ kv ∈ pyGroupBy key ps,
      (kv.2.contains p) = (kv.1 == key p) := by
    intro kv hkv
    have hc := mem_pyGroupBy_content hkv
    rw [Bool.eq_iff_iff]
    constructor
    · intro hcont
      have hm : p ∈ kv.2 := contains_iff_mem.mp hcont
      rw [hc] at hm
      have := (List.mem_filter.mp hm).2
      simp only [beq_iff_eq] at this ⊢
      exact this.symm
    · intro hkeq
      simp only [beq_iff_eq] at hkeq
      apply contains_iff_mem.mpr
      rw [hc]
      exact List.mem_filter.mpr ⟨hp, by simp [hkeq]⟩
  rw [List.filter_congr hcongr]
  have hlen : ((pyGroupBy key ps).filter (fun kv => kv.1 == key p)).length
      = ((pyGroupBy key ps).map Prod.fst).count (key p) := by
    rw [← List.countP_eq_length_filter, List.count_eq_countP, List.countP_map]
    rfl
  rw [hlen]
  exact List.count_eq_one_of_mem (keys_pyGroupBy_nodup key ps)
    (key_mem_keys_pyGroupBy hp)

theorem sum_lengths_pyGroupBy (key : String → String) (ps : List String) :
    (((pyGroupBy key ps).map Prod.snd).map List.length).sum = ps.length := by
  rw [← List.length_flatten]
  exact (flatten_pyGroupBy key ps).length_eq

/-! ### Fidelity facts about the collector's filter -/

theorem keepEntry_split {rootParts : List String} {e : FSEntry}
    (h : keepEntry rootParts e = true) :
    ((rootParts ++ e.parts).any (fun part => ignore_dirs.contains part)) = false ∧
    startsWithDot (entryName e) = false ∧
    e.isFile = true ∧
    image_extensions.contains (lowerStr (pySuffix (entryName e))) = true := by
  simp only [keepEntry, Bool.and_eq_true, Bool.not_eq_true'] at h
  exact ⟨h.1.1, h.1.2, h.2.1, h.2.2⟩

theorem image_ext_facts : ∀ s ∈ image_extensions, s ≠ "" ∧ s ≠ "no_extension" := by
  decide

theorem pyName_relString {e : FSEntry} (hne : e.parts ≠ [])
    (hg : ∀ s ∈ e.parts, goodSeg s = true) :
    pyName (relString e) = entryName e := by
  rw [relString_eq_joinParts hg]
  unfold pyName entryName
  rw [pathParts_joinParts hne hg]

theorem extOf_relString {e : FSEntry} (hne : e.parts ≠ [])
    (hg : ∀ s ∈ e.parts, goodSeg s = true)
    (hext : image_extensions.contains (lowerStr (pySuffix (entryName e))) = true) :
    extOf (relString e) = lowerStr (pySuffix (entryName e)) := by
  unfold extOf
  rw [pyName_relString hne hg]
  have hmem : lowerStr (pySuffix (entryName e)) ∈ image_extensions :=
    contains_iff_mem.mp hext
  simp [(image_ext_facts _ hmem).1]

theorem get_image_paths_tree_perm (rootParts : List String)
    {t1 t2 : List FSEntry} (h : t1.Perm t2) :
    get_image_paths rootParts t1 = get_image_paths rootParts t2 := by
  have hperm : (get_image_paths rootParts t1).Perm (get_image_paths rootParts t2) :=
    ((get_image_paths_perm rootParts t1).trans
      ((h.filter (keepEntry rootParts)).map relString)).trans
      (get_image_paths_perm rootParts t2).symm
  have hs1 : List.Sorted (fun a b => pyLe a b = true) (get_image_paths rootParts t1) :=
    get_image_paths_sorted rootParts t1
  have hs2 : List.Sorted (fun a b => pyLe a b = true) (get_image_paths rootParts t2) :=
    get_image_paths_sorted rootParts t2
  exact List.eq_of_perm_of_sorted hperm hs1 hs2

theorem get_image_paths_nodup {rootParts : List String} {tree : List FSEntry}
    (hw : WellFormedTree tree) : (get_image_paths rootParts tree).Nodup := by
  apply (get_image_paths_perm rootParts tree).symm.nodup
  apply List.Nodup.map_on
  · intro x hx y hy hxy
    have hxt := (List.mem_filter.mp hx).1
    have hyt := (List.mem_filter.mp hy).1
    obtain ⟨hnex, hgx⟩ := hw.1 x hxt
    obtain ⟨hney, hgy⟩ := hw.1 y hyt
    rw [relString_eq_joinParts hgx, relString_eq_joinParts hgy] at hxy
    have hparts : x.parts = y.parts :=
      joinParts_injective hnex hgx hney hgy hxy
    exact List.inj_on_of_nodup_map hw.2 hxt hyt hparts
  · exact ((hw.2.of_map FSEntry.parts)).filter _

theorem get_image_paths_strict_sorted {rootParts : List String} {tree : List FSEntry}
    (hw : WellFormedTree tree) :
    (get_image_paths rootParts tree).Pairwise (fun a b => pyLt a b = true) := by
  have hs := get_image_paths_sorted rootParts tree
  have hn : (get_image_paths rootParts tree).Pairwise (fun a b => a ≠ b) :=
    get_image_paths_nodup hw
  exact (hs.and hn).imp (fun h => pyLt_of_pyLe_of_ne h.1 h.2)

theorem segmentsOf_relString {e : FSEntry} (hne : e.parts ≠ [])
    (hg : ∀ s ∈ e.parts, goodSeg s = true) :
    segmentsOf (relString e) = e.parts := by
  rw [relString_eq_joinParts hg]
  exact segmentsOf_joinParts hne hg

theorem not_ignored_parts {rootParts : List String} {e : FSEntry}
    (h : ((rootParts ++ e.parts).any (fun part => ignore_dirs.contains part)) = false) :
    ∀ seg ∈ e.parts, seg ∉ ignore_dirs := by
  rw [List.any_eq_false] at h
  intro seg hseg hmem
  exact h seg (List.mem_append.mpr (Or.inr hseg)) (contains_iff_mem.mpr hmem)

/-! ### Helpers about the report builder and the entry point -/

theorem mainOutput_empty {env : Env} {now : String} {rootParts : List String}
    {tree : List FSEntry} (h : get_image_paths rootParts tree = []) :
    mainOutput env now rootParts tree = emptyOutput env now := by
  simp [mainOutput, h]

theorem mainOutput_nonempty {env : Env} {now : String} {rootParts : List String}
    {tree : List FSEntry} (h : get_image_paths rootParts tree ≠ []) :
    mainOutput env now rootParts tree =
      create_json_output env now (get_image_paths rootParts tree) := by
  simp [mainOutput, h]

theorem mainRun_written {w : World} (h1 : w.scanError = none)
    (h2 : w.writeError = none) :
    (mainRun w).written = some (mainOutput w.env w.now w.rootParts w.tree) := by
  unfold mainRun
  rw [h1, h2]
  cases hgo : w.env.github_output with
  | none => rfl
  | some s =>
    cases hse : w.sinkError with
    | none => rfl
    | some e => rfl

/-- The report document with its `generated_at` timestamp blanked out;
two serialized reports are byte-identical outside that field exactly when
their masked documents coincide. -/
def maskTimestamp (d : ReportDocument) : ReportDocument :=
  { d with metadata := { d.metadata with generated_at := "" } }

/-! ### Concrete trees used as counterexamples and witnesses -/

/-- A POSIX tree with a single regular file literally named `a\.png`
(backslash in the file name, which POSIX allows). -/
def backslashTree : List FSEntry := [⟨["a\\.png"], true⟩]

/-- A POSIX tree containing a file named `a\b.png` at the root and a file
named `b.png` inside a directory `a`. -/
def backslashDupTree : List FSEntry :=
  [⟨["a\\b.png"], true⟩, ⟨["a"], false⟩, ⟨["a", "b.png"], true⟩]

/-- A tree whose image file sits inside a dot-named directory that is not
in the ignore set. -/
def hiddenDirTree : List FSEntry :=
  [⟨[".hidden"], false⟩, ⟨[".hidden", "a.png"], true⟩]

theorem backslashTree_paths : get_image_paths [] backslashTree = ["a/.png"] :=
  get_image_paths_eq_of_sorted rfl (by decide)

theorem backslashDupTree_paths :
    get_image_paths [] backslashDupTree = ["a/b.png", "a/b.png"] :=
  get_image_paths_eq_of_sorted rfl (by decide)

theorem hiddenDirTree_paths : get_image_paths [] hiddenDirTree = [".hidden/a.png"] :=
  get_image_paths_eq_of_sorted rfl (by decide)

/-! ### The claims -/

/-- C1: when the collected path list is empty, the program still writes a
fully populated report document whose `total_images` is 0, whose
statistics and image groupings are all empty, and whose `summary` is
exactly the literal string "No image files found". -/
theorem claim_C1_empty_report (w : World)
    (hscan : w.scanError = none) (hwrite : w.writeError = none)
    (hempty : get_image_paths w.rootParts w.tree = []) :
    (mainRun w).written = some (emptyOutput w.env w.now) ∧
    (emptyOutput w.env w.now).metadata.total_images = 0 ∧
    (emptyOutput w.env w.now).statistics.by_folder = [] ∧
    (emptyOutput w.env w.now).statistics.by_extension = [] ∧
    (emptyOutput w.env w.now).images.all_paths = [] ∧
    (emptyOutput w.env w.now).images.by_folder = [] ∧
    (emptyOutput w.env w.now).images.by_extension = [] ∧
    (emptyOutput w.env w.now).summary = "No image files found" := by
  refine ⟨?_, rfl, rfl, rfl, rfl, rfl, rfl, rfl⟩
  rw [mainRun_written hscan hwrite, mainOutput_empty hempty]

/-- Witness for C1 at a concrete world whose tree is empty. -/
theorem claim_C1_witness :
    (mainRun ⟨[], [], ⟨none, none, none, none⟩, "ts", none, none, none⟩).written =
      some (emptyOutput ⟨none, none, none, none⟩ "ts") ∧
    (emptyOutput ⟨none, none, none, none⟩ "ts").metadata.total_images = 0 ∧
    (emptyOutput ⟨none, none, none, none⟩ "ts").statistics.by_folder = [] ∧
    (emptyOutput ⟨none, none, none, none⟩ "ts").statistics.by_extension = [] ∧
    (emptyOutput ⟨none, none, none, none⟩ "ts").images.all_paths = [] ∧
    (emptyOutput ⟨none, none, none, none⟩ "ts").images.by_folder = [] ∧
    (emptyOutput ⟨none, none, none, none⟩ "ts").images.by_extension = [] ∧
    (emptyOutput ⟨none, none, none, none⟩ "ts").summary = "No image files found" :=
  claim_C1_empty_report ⟨[], [], ⟨none, none, none, none⟩, "ts", none, none, none⟩
    rfl rfl (by simp [get_image_paths])

/-- C2: for a non-empty path list, the report's `summary` is exactly the
templated string with N = `metadata.total_images` (= the length of the
path list) and M = the number of (distinct) by-folder keys. -/
theorem claim_C2_summary (env : Env) (now : String) (paths : List String)
    (_hne : paths ≠ []) :
    (create_json_output env now paths).summary =
      "Found " ++ toString (create_json_output env now paths).metadata.total_images ++
      " image files across " ++
      toString (create_json_output env now paths).images.by_folder.length ++
      " folders" ∧
    (create_json_output env now paths).metadata.total_images = paths.length ∧
    ((create_json_output env now paths).images.by_folder.map Prod.fst).Nodup := by
  refine ⟨rfl, rfl, ?_⟩
  have h : (create_json_output env now paths).images.by_folder =
      group_by_folder paths := rfl
  rw [h, group_by_folder_eq]
  exact keys_pyGroupBy_nodup _ _

/-- Witness for C2 at a concrete non-empty path list. -/
theorem claim_C2_witness :
    (create_json_output ⟨none, none, none, none⟩ "ts" ["a.png", "a/b.JPG"]).summary =
      "Found " ++ toString (create_json_output ⟨none, none, none, none⟩ "ts"
        ["a.png", "a/b.JPG"]).metadata.total_images ++
      " image files across " ++
      toString (create_json_output ⟨none, none, none, none⟩ "ts"
        ["a.png", "a/b.JPG"]).images.by_folder.length ++
      " folders" ∧
    (create_json_output ⟨none, none, none, none⟩ "ts"
      ["a.png", "a/b.JPG"]).metadata.total_images = ["a.png", "a/b.JPG"].length ∧
    ((create_json_output ⟨none, none, none, none⟩ "ts"
      ["a.png", "a/b.JPG"]).images.by_folder.map Prod.fst).Nodup :=
  claim_C2_summary ⟨none, none, none, none⟩ "ts" ["a.png", "a/b.JPG"] (by decide)

/-- C3: the by-folder and by-extension groupings partition the path list:
the group lists jointly contain exactly the input paths, each input path
lies in exactly one group of each grouping, and the per-group counts in
`statistics` sum to `metadata.total_images`. -/
theorem claim_C3_partition (env : Env) (now : String) (paths : List String) :
    ((group_by_folder paths).map Prod.snd).flatten.Perm paths ∧
    ((group_by_extension paths).map Prod.snd).flatten.Perm paths ∧
    (∀ p ∈ paths,
      ((group_by_folder paths).filter (fun kv => kv.2.contains p)).length = 1) ∧
    (∀ p ∈ paths,
      ((group_by_extension paths).filter (fun kv => kv.2.contains p)).length = 1) ∧
    ((create_json_output env now paths).statistics.by_folder.map Prod.snd).sum =
      (create_json_output env now paths).metadata.total_images ∧
    ((create_json_output env now paths).statistics.by_extension.map Prod.snd).sum =
      (create_json_output env now paths).metadata.total_images := by
  refine ⟨?_, ?_, ?_, ?_, ?_, ?_⟩
  · rw [group_by_folder_eq]
    exact flatten_pyGroupBy _ _
  · rw [group_by_extension_eq]
    exact flatten_pyGroupBy _ _
  · intro p hp
    rw [group_by_folder_eq]
    exact filter_contains_length_one _ _ hp
  · intro p hp
    rw [group_by_extension_eq]
    exact filter_contains_length_one _ _ hp
  · show (((group_by_folder paths).map
      (fun kv => (kv.1, kv.2.length))).map Prod.snd).sum = paths.length
    rw [List.map_map, group_by_folder_eq]
    have h := sum_lengths_pyGroupBy folderOf paths
    rw [List.map_map] at h
    exact h
  · show (((group_by_extension paths).map
      (fun kv => (kv.1, kv.2.length))).map Prod.snd).sum = paths.length
    rw [List.map_map, group_by_extension_eq]
    have h := sum_lengths_pyGroupBy extOf paths
    rw [List.map_map] at h
    exact h

/-- Witness for C3 at a concrete path list, with the exactly-one parts
instantiated at a concrete path. -/
theorem claim_C3_witness :
    ((group_by_folder ["a.png", "a/b.png", "ab.png"]).map Prod.snd).flatten.Perm
      ["a.png", "a/b.png", "ab.png"] ∧
    ((group_by_extension ["a.png", "a/b.png", "ab.png"]).map Prod.snd).flatten.Perm
      ["a.png", "a/b.png", "ab.png"] ∧
    ((group_by_folder ["a.png", "a/b.png", "ab.png"]).filter
      (fun kv => kv.2.contains "a/b.png")).length = 1 ∧
    ((group_by_extension ["a.png", "a/b.png", "ab.png"]).filter
      (fun kv => kv.2.contains "a/b.png")).length = 1 ∧
    ((create_json_output ⟨none, none, none, none⟩ "ts"
      ["a.png", "a/b.png", "ab.png"]).statistics.by_folder.map Prod.snd).sum =
      (create_json_output ⟨none, none, none, none⟩ "ts"
        ["a.png", "a/b.png", "ab.png"]).metadata.total_images :=
  ⟨(claim_C3_partition ⟨none, none, none, none⟩ "ts" _).1,
   (claim_C3_partition ⟨none, none, none, none⟩ "ts" _).2.1,
   (claim_C3_partition ⟨none, none, none, none⟩ "ts" _).2.2.1 "a/b.png" (by decide),
   (claim_C3_partition ⟨none, none, none, none⟩ "ts" _).2.2.2.1 "a/b.png" (by decide),
   (claim_C3_partition ⟨none, none, none, none⟩ "ts" _).2.2.2.2.1⟩

/-- C6: `group_by_folder` keys each path by its parent directory (sentinel
`"root"` for the scan root), creates keys in first-encounter order, and
each group's list is the input list filtered to that key (hence input
order is preserved within groups, and sorted input yields sorted groups). -/
theorem claim_C6_group_by_folder (paths : List String) :
    ((group_by_folder paths).map Prod.fst = dedupFirst (paths.map folderOf)) ∧
    (∀ kv ∈ group_by_folder paths,
      kv.2 = paths.filter (fun p => folderOf p == kv.1)) ∧
    (paths.Pairwise (fun a b => pyLe a b = true) →
      ∀ kv ∈ group_by_folder paths,
        kv.2.Pairwise (fun a b => pyLe a b = true)) := by
  refine ⟨?_, ?_, ?_⟩
  · rw [group_by_folder_eq]
    exact keys_pyGroupBy _ _
  · intro kv hkv
    rw [group_by_folder_eq] at hkv
    exact mem_pyGroupBy_content hkv
  · intro hs kv hkv
    rw [group_by_folder_eq] at hkv
    rw [mem_pyGroupBy_content hkv]
    exact List.Pairwise.filter _ hs

/-- Witness for C6 at a concrete (sorted) path list and a concrete group. -/
theorem claim_C6_witness :
    ((group_by_folder ["a.png", "a/b.png", "ab.png"]).map Prod.fst =
      dedupFirst (["a.png", "a/b.png", "ab.png"].map folderOf)) ∧
    (("root", ["a.png", "ab.png"]).2 =
      ["a.png", "a/b.png", "ab.png"].filter (fun p => folderOf p == "root")) ∧
    (["a.png", "ab.png"].Pairwise (fun a b => pyLe a b = true)) :=
  ⟨(claim_C6_group_by_folder _).1,
   (claim_C6_group_by_folder ["a.png", "a/b.png", "ab.png"]).2.1
     ("root", ["a.png", "ab.png"]) (by decide),
   (claim_C6_group_by_folder ["a.png", "a/b.png", "ab.png"]).2.2 (by decide)
     ("root", ["a.png", "ab.png"]) (by decide)⟩

/-- C4 counterexample: on a POSIX tree containing a file literally named
`a\b.png` next to a directory `a` containing `b.png`, the collector
returns the same rendered path twice, so its output is not duplicate-free
(the backslash-to-slash replacement conflates the two files). -/
theorem claim_C4_counterexample :
    get_image_paths [] backslashDupTree = ["a/b.png", "a/b.png"] ∧
    ¬ (get_image_paths [] backslashDupTree).Nodup := by
  refine ⟨backslashDupTree_paths, ?_⟩
  rw [backslashDupTree_paths]
  decide

/-- C4 (amended: for trees whose names contain no backslash): the
collector's output is strictly sorted (hence duplicate-free) in ascending
code-point order, and every element is the forward-slash join of the
root-relative segments of a regular file of the tree whose lowercased
extension is in the supported set, rendered with its original casing. -/
theorem claim_C4_collector_output (rootParts : List String) (tree : List FSEntry)
    (hw : WellFormedTree tree) :
    (get_image_paths rootParts tree).Pairwise (fun a b => pyLt a b = true) ∧
    (get_image_paths rootParts tree).Nodup ∧
    ∀ p ∈ get_image_paths rootParts tree, ∃ e ∈ tree,
      e.isFile = true ∧
      image_extensions.contains (lowerStr (pySuffix (entryName e))) = true ∧
      p = joinParts e.parts := by
  refine ⟨get_image_paths_strict_sorted hw, get_image_paths_nodup hw, ?_⟩
  intro p hp
  obtain ⟨e, he, hkeep, hpe⟩ := mem_get_image_paths.mp hp
  obtain ⟨hne, hg⟩ := hw.1 e he
  obtain ⟨_, _, hfile, hext⟩ := keepEntry_split hkeep
  exact ⟨e, he, hfile, hext, by rw [hpe, relString_eq_joinParts hg]⟩

/-- Witness for C4 (amended) at a concrete well-formed tree. -/
theorem claim_C4_witness :
    (get_image_paths [] [⟨["a.png"], true⟩, ⟨["a"], false⟩,
      ⟨["a", "b.JPG"], true⟩]).Pairwise (fun a b => pyLt a b = true) ∧
    (get_image_paths [] [⟨["a.png"], true⟩, ⟨["a"], false⟩,
      ⟨["a", "b.JPG"], true⟩]).Nodup ∧
    ∀ p ∈ get_image_paths [] [⟨["a.png"], true⟩, ⟨["a"], false⟩,
      ⟨["a", "b.JPG"], true⟩], ∃ e ∈ ([⟨["a.png"], true⟩, ⟨["a"], false⟩,
      ⟨["a", "b.JPG"], true⟩] : List FSEntry),
      e.isFile = true ∧
      image_extensions.contains (lowerStr (pySuffix (entryName e))) = true ∧
      p = joinParts e.parts :=
  claim_C4_collector_output [] [⟨["a.png"], true⟩, ⟨["a"], false⟩,
    ⟨["a", "b.JPG"], true⟩] (by constructor <;> decide)

/-- C5 counterexample: for the POSIX tree with a file named `a\.png`, the
collector returns the path "a/.png", whose final path segment begins with
a dot. -/
theorem claim_C5_counterexample :
    get_image_paths [] backslashTree = ["a/.png"] ∧
    "a/.png" ∈ get_image_paths [] backslashTree ∧
    startsWithDot ((segmentsOf "a/.png").getLastD "") = true := by
  refine ⟨backslashTree_paths, ?_, by decide⟩
  rw [backslashTree_paths]
  decide

/-- C5 (amended: for trees whose names contain no backslash): no returned
path contains an ignored directory name as a segment, and no returned
path's final segment begins with a dot. -/
theorem claim_C5_ignored_and_hidden (rootParts : List String) (tree : List FSEntry)
    (hw : WellFormedTree tree) :
    ∀ p ∈ get_image_paths rootParts tree,
      (∀ seg ∈ segmentsOf p, seg ∉ ignore_dirs) ∧
      startsWithDot ((segmentsOf p).getLastD "") = false := by
  intro p hp
  obtain ⟨e, he, hkeep, hpe⟩ := mem_get_image_paths.mp hp
  obtain ⟨hne, hg⟩ := hw.1 e he
  have hsegs : segmentsOf p = e.parts := by
    rw [hpe]
    exact segmentsOf_relString hne hg
  obtain ⟨hig, hdot, _, _⟩ := keepEntry_split hkeep
  constructor
  · rw [hsegs]
    exact not_ignored_parts hig
  · rw [hsegs]
    exact hdot

/-- Witness for C5 (amended) at a concrete well-formed tree and a concrete
returned path and segment. -/
theorem claim_C5_witness :
    (∀ seg ∈ segmentsOf ".hidden/a.png", seg ∉ ignore_dirs) ∧
    startsWithDot ((segmentsOf ".hidden/a.png").getLastD "") = false :=
  claim_C5_ignored_and_hidden [] hiddenDirTree (by constructor <;> decide)
    ".hidden/a.png" (by rw [hiddenDirTree_paths]; decide)

/-- C7 counterexample: the collector's output on the tree with a file
named `a\.png` is the path list ["a/.png"], whose extension grouping
consists of exactly the sentinel key "no_extension". -/
theorem claim_C7_counterexample :
    (group_by_extension (get_image_paths [] backslashTree)).map Prod.fst =
      ["no_extension"] ∧
    "no_extension" ∈
      (group_by_extension (get_image_paths [] backslashTree)).map Prod.fst := by
  rw [backslashTree_paths]
  exact ⟨by decide, by decide⟩

/-- C7 (amended): `group_by_extension` keys each path by its lowercased
suffix (sentinel "no_extension" for suffixless paths), each group being
the input filtered to that key with keys in first-encounter order; and
for collector output on trees whose names contain no backslash, the
"no_extension" key never occurs. -/
theorem claim_C7_group_by_extension :
    (∀ paths : List String,
      ((group_by_extension paths).map Prod.fst = dedupFirst (paths.map extOf)) ∧
      ∀ kv ∈ group_by_extension paths,
        kv.2 = paths.filter (fun p => extOf p == kv.1)) ∧
    (∀ (rootParts : List String) (tree : List FSEntry), WellFormedTree tree →
      "no_extension" ∉
        (group_by_extension (get_image_paths rootParts tree)).map Prod.fst) := by
  constructor
  · intro paths
    constructor
    · rw [group_by_extension_eq]
      exact keys_pyGroupBy _ _
    · intro kv hkv
      rw [group_by_extension_eq] at hkv
      exact mem_pyGroupBy_content hkv
  · intro rootParts tree hw hmem
    rw [group_by_extension_eq, keys_pyGroupBy] at hmem
    have hmem2 := dedupFirstFrom_subset _ [] _ hmem
    obtain ⟨p, hp, hkey⟩ := List.mem_map.mp hmem2
    obtain ⟨e, he, hkeep, hpe⟩ := mem_get_image_paths.mp hp
    obtain ⟨hne, hg⟩ := hw.1 e he
    have hext := (keepEntry_split hkeep).2.2.2
    rw [hpe, extOf_relString hne hg hext] at hkey
    exact (image_ext_facts _ (contains_iff_mem.mp hext)).2 hkey

/-- Witness for C7 (amended) at a concrete path list, group, and tree. -/
theorem claim_C7_witness :
    ((group_by_extension ["a.png", "a/b.JPG"]).map Prod.fst =
      dedupFirst (["a.png", "a/b.JPG"].map extOf)) ∧
    ((".jpg", ["a/b.JPG"]).2 =
      ["a.png", "a/b.JPG"].filter (fun p => extOf p == ".jpg")) ∧
    "no_extension" ∉
      (group_by_extension (get_image_paths [] hiddenDirTree)).map Prod.fst :=
  ⟨(claim_C7_group_by_extension.1 ["a.png", "a/b.JPG"]).1,
   (claim_C7_group_by_extension.1 ["a.png", "a/b.JPG"]).2
     (".jpg", ["a/b.JPG"]) (by decide),
   claim_C7_group_by_extension.2 [] hiddenDirTree (by constructor <;> decide)⟩

/-- C8: the entry point exits 0 (writing the document) when no step
raises, including the zero-image case, and exits 1 with the diagnostic on
stderr when the scan, the write, or the performed sink-append raises. -/
theorem claim_C8_exit_codes (w : World) :
    ((w.scanError = none ∧ w.writeError = none ∧
        (w.env.github_output.isSome → w.sinkError = none)) →
      (mainRun w).exitCode = 0 ∧
      (mainRun w).written = some (mainOutput w.env w.now w.rootParts w.tree) ∧
      (mainRun w).errMsg = none) ∧
    (∀ e : String,
      (w.scanError = some e ∨
       (w.scanError = none ∧ w.writeError = some e) ∨
       (w.scanError = none ∧ w.writeError = none ∧
         w.env.github_output.isSome ∧ w.sinkError = some e)) →
      (mainRun w).exitCode = 1 ∧ (mainRun w).errMsg = some (failMsg e)) := by
  constructor
  · rintro ⟨h1, h2, h3⟩
    unfold mainRun
    rw [h1, h2]
    cases hgo : w.env.github_output with
    | none => exact ⟨rfl, rfl, rfl⟩
    | some s =>
      rw [h3 (by simp [hgo])]
      exact ⟨rfl, rfl, rfl⟩
  · rintro e (h | ⟨h1, h2⟩ | ⟨h1, h2, h3, h4⟩)
    · unfold mainRun
      rw [h]
      exact ⟨rfl, rfl⟩
    · unfold mainRun
      rw [h1, h2]
      exact ⟨rfl, rfl⟩
    · unfold mainRun
      rw [h1, h2]
      obtain ⟨s, hs⟩ := Option.isSome_iff_exists.mp h3
      rw [hs, h4]
      exact ⟨rfl, rfl⟩

/-- Witness for C8: one error-free world (exit 0, file written) and one
world whose scan raises (exit 1, diagnostic on stderr). -/
theorem claim_C8_witness :
    ((mainRun ⟨[], [⟨["a.png"], true⟩], ⟨none, none, none, none⟩, "ts",
        none, none, none⟩).exitCode = 0 ∧
      (mainRun ⟨[], [⟨["a.png"], true⟩], ⟨none, none, none, none⟩, "ts",
        none, none, none⟩).written =
        some (mainOutput ⟨none, none, none, none⟩ "ts" [] [⟨["a.png"], true⟩]) ∧
      (mainRun ⟨[], [⟨["a.png"], true⟩], ⟨none, none, none, none⟩, "ts",
        none, none, none⟩).errMsg = none) ∧
    ((mainRun ⟨[], [], ⟨none, none, none, none⟩, "ts",
        some "boom", none, none⟩).exitCode = 1 ∧
      (mainRun ⟨[], [], ⟨none, none, none, none⟩, "ts",
        some "boom", none, none⟩).errMsg = some (failMsg "boom")) :=
  ⟨(claim_C8_exit_codes _).1 ⟨rfl, rfl, by simp⟩,
   (claim_C8_exit_codes _).2 "boom" (Or.inl rfl)⟩

/-- C9: with a fixed environment and a fixed tree (up to the enumeration
order of the walk), two runs produce identical report documents except
for the `generated_at` field; since the serialized file is a function of
the document (with key order fixed by the association lists), the
serialized outputs agree outside that field. -/
theorem claim_C9_deterministic (env : Env) (now1 now2 : String)
    (rootParts : List String) {tree1 tree2 : List FSEntry}
    (hperm : tree1.Perm tree2) :
    maskTimestamp (mainOutput env now1 rootParts tree1) =
      maskTimestamp (mainOutput env now2 rootParts tree2) := by
  have hpaths := get_image_paths_tree_perm rootParts hperm
  by_cases h : get_image_paths rootParts tree2 = []
  · rw [mainOutput_empty (hpaths.trans h), mainOutput_empty h]
    rfl
  · rw [mainOutput_nonempty (fun hh => h (hpaths ▸ hh)), mainOutput_nonempty h,
      hpaths]
    rfl

/-- Witness for C9 at two concrete enumerations of the same tree. -/
theorem claim_C9_witness :
    maskTimestamp (mainOutput ⟨none, none, none, none⟩ "t1" []
      [⟨["b.png"], true⟩, ⟨["a.png"], true⟩]) =
    maskTimestamp (mainOutput ⟨none, none, none, none⟩ "t2" []
      [⟨["a.png"], true⟩, ⟨["b.png"], true⟩]) :=
  claim_C9_deterministic ⟨none, none, none, none⟩ "t1" "t2" [] (by decide)

/-- C10: the collector does include files inside dot-named directories
that are not in the ignore set: the hidden-name check applies only to an
entry's own final name, and descent into dot-directories is not pruned. -/
theorem claim_C10_hidden_dir_descent :
    get_image_paths [] hiddenDirTree = [".hidden/a.png"] ∧
    ".hidden/a.png" ∈ get_image_paths [] hiddenDirTree ∧
    ".hidden" ∉ ignore_dirs ∧
    startsWithDot ".hidden" = true := by
  refine ⟨hiddenDirTree_paths, ?_, by decide, by decide⟩
  rw [hiddenDirTree_paths]
  decide
